import Mathlib

/-!
Verification development for the KB CI runner (kb_ci_runner.py): a shallow
embedding of its text analyzer (slug, title, anchors, references), corpus
scanner, and lint engine, together with theorems settling the specification
claims about them.

Text is modelled as `List Char`. The Python functions operate on `str`; the
character classes below model the relevant Python classes. For classes that
Python defines over all of Unicode via character categories (`\w`, `str.lower`,
`str.title`), the model is exact on the ASCII range (the range exercised by the
repository's own notation: slugs, the `KB:` token, heading markers) and treats
non-ASCII letters as plain uncased non-word characters.
-/

namespace KBCI

abbrev Str := List Char

/-- Python whitespace (`str.isspace`, also the `re` class `\s` on `str`):
ASCII whitespace, the file/group/record/unit separators, NEL, NBSP and the
Unicode space separators. -/
def pyIsSpace (c : Char) : Bool :=
  c = ' ' || c = '\t' || c = '\n' || c = '\r' || c = '\x0b' || c = '\x0c' ||
  c = '\x1c' || c = '\x1d' || c = '\x1e' || c = '\x1f' || c = '\x85' ||
  c = '\xa0' || c = '\u1680' ||
  (('\u2000' : Char) ≤ c && c ≤ ('\u200A' : Char)) ||
  c = '\u2028' || c = '\u2029' || c = '\u202F' || c = '\u205F' || c = '\u3000'

/-- The `re` class `\w` (ASCII fragment): letters, digits and underscore. -/
def pyIsWord (c : Char) : Bool :=
  c.isAlphanum || c = '_'

/-- The line boundaries of Python `str.splitlines`. -/
def isLineBreakChar (c : Char) : Bool :=
  c = '\n' || c = '\r' || c = '\x0b' || c = '\x0c' ||
  c = '\x1c' || c = '\x1d' || c = '\x1e' || c = '\x85' ||
  c = '\u2028' || c = '\u2029'

/-- Helper for `pySplitlines`: `cur` is the current line accumulated in
reverse. A `\r\n` pair counts as one boundary; a boundary at the very end of
the text produces no trailing empty line (Python `str.splitlines`). -/
def splitlinesGo (cur : Str) : Str → List Str
  | [] => [cur.reverse]
  | '\r' :: '\n' :: rest =>
      cur.reverse :: (if rest.isEmpty then [] else splitlinesGo [] rest)
  | c :: rest =>
      if isLineBreakChar c then
        cur.reverse :: (if rest.isEmpty then [] else splitlinesGo [] rest)
      else
        splitlinesGo (c :: cur) rest

/-- Python `str.splitlines`. -/
def pySplitlines (s : Str) : List Str :=
  if s.isEmpty then [] else splitlinesGo [] s

/-- Python `str.strip()`: drop leading and trailing whitespace. -/
def pyStrip (s : Str) : Str :=
  ((s.dropWhile pyIsSpace).reverse.dropWhile pyIsSpace).reverse

/-- Helper for `reSubWsRuns`: the flag records whether the previous character
was whitespace (so the hyphen for this run was already emitted). -/
def subWsGo (inRun : Bool) : Str → Str
  | [] => []
  | c :: cs =>
      if pyIsSpace c then
        if inRun then subWsGo true cs else '-' :: subWsGo true cs
      else
        c :: subWsGo false cs

/-- `re.sub(r"\s+", "-", s)`: each maximal whitespace run becomes one hyphen. -/
def reSubWsRuns (s : Str) : Str := subWsGo false s

/-- Helper for `collapseSlashes`: the flag records whether the previous
character was a slash. -/
def slashGo (inRun : Bool) : Str → Str
  | [] => []
  | c :: cs =>
      if c = '/' then
        if inRun then slashGo true cs else '/' :: slashGo true cs
      else
        c :: slashGo false cs

/-- `re.sub(r"/{2,}", "/", s)`: each maximal run of two or more slashes
becomes one slash (a lone slash is already one). -/
def collapseSlashes (s : Str) : Str := slashGo false s

/-- Python `str.strip("-")`: drop leading and trailing hyphens. -/
def stripHyphens (s : Str) : Str :=
  ((s.dropWhile (fun c => c = '-')).reverse.dropWhile (fun c => c = '-')).reverse

/-- The index of the last `.` in a file name, if any (Python `str.rfind`). -/
def lastDotIdx (s : Str) : Option Nat :=
  ((s.enum.filter (fun p => p.2 = '.')).map (fun p => p.1)).getLast?

/-- `pathlib.PurePath.stem` of a single file name: the name with its suffix
removed, where the suffix starts at the last dot provided that dot is neither
the first nor the last character. `with_suffix("")` removes the same suffix. -/
def pyStem (name : Str) : Str :=
  match lastDotIdx name with
  | some i => if 0 < i && i + 1 < name.length then name.take i else name
  | none => name

/-- Python `str.lower` (ASCII fragment): `Char.toLower` maps `A`..`Z` down. -/
def lowerStr (s : Str) : Str := s.map Char.toLower

/-- ASCII cased characters, for `str.title` (ASCII fragment). -/
def isCasedAscii (c : Char) : Bool := c.isAlpha

/-- Helper for `pyTitle`: `prevCased` tells whether the previous character was
cased; a cased character after an uncased one is uppercased, any other cased
character is lowercased (Python `str.title`). -/
def pyTitleGo (prevCased : Bool) : Str → Str
  | [] => []
  | c :: cs =>
      if isCasedAscii c then
        (if prevCased then c.toLower else c.toUpper) :: pyTitleGo true cs
      else
        c :: pyTitleGo false cs

/-- Python `str.title` (ASCII fragment). -/
def pyTitle (s : Str) : Str := pyTitleGo false s

/-- `"/".join(parts)`. -/
def joinSlash : List Str → Str
  | [] => []
  | [p] => p
  | p :: ps => p ++ '/' :: joinSlash ps

/-- Apply `f` to the last component of a path; `with_suffix` acts there. -/
def updateLast (f : Str → Str) : List Str → List Str
  | [] => []
  | [p] => [f p]
  | p :: ps => p :: updateLast f ps

/-- `slugify_path` from kb_ci_runner.py. The argument is the path of the
document relative to the knowledge root, as its list of components, the last
one the file name with its extension. `rel.with_suffix("")` strips the final
component's suffix; the components are joined with `/` behind a leading `/`;
the joined slug is stripped of leading and trailing whitespace (the
`slug.strip()` call); whitespace runs become single hyphens; runs of two or
more slashes collapse to one. -/
def slugify_path (parts : List Str) : Str :=
  collapseSlashes (reSubWsRuns (pyStrip ('/' :: joinSlash (updateLast pyStem parts))))

/-- The slug formula exactly as the specification words it (claim C8): path
relative to the root with the extension stripped, prefixed with `/`,
whitespace runs replaced by single hyphens, repeated separators collapsed.
It names no trimming of leading or trailing whitespace. -/
def slugify_path_claim (parts : List Str) : Str :=
  collapseSlashes (reSubWsRuns ('/' :: joinSlash (updateLast pyStem parts)))

/-- The line scan of `extract_title`: the first line whose stripped text
starts with `#` followed by one space yields that line's heading text
(everything after the marker, stripped). -/
def titleLoop : List Str → Option Str
  | [] => none
  | l :: ls =>
      if ("# ".data).isPrefixOf (pyStrip l) then some (pyStrip ((pyStrip l).drop 2))
      else titleLoop ls

/-- `fallback.replace("-", " ")`. -/
def hyphensToSpaces (s : Str) : Str := s.map (fun c => if c = '-' then ' ' else c)

/-- `extract_title` from kb_ci_runner.py: the first level-1 heading text, or
else `Path(fallback).stem.replace("-", " ").title()`. Note the fallback is
re-parsed as a path, so its own stem is taken once more. -/
def extract_title (md : Str) (fallback : Str) : Str :=
  match titleLoop (pySplitlines md) with
  | some t => t
  | none => pyTitle (hyphensToSpaces (pyStem fallback))

/-- The test `re.match(r"^\s*#{1,6}\s+\S", line)`: optional leading
whitespace, a run of one to six hashes (seven or more hashes never match,
since after at most six consumed hashes the required whitespace would have to
match another hash), at least one whitespace character, then a non-whitespace
character. -/
def isHeadingLine (l : Str) : Bool :=
  let t := l.dropWhile pyIsSpace
  let hs := t.takeWhile (fun c => c = '#')
  let rest := t.dropWhile (fun c => c = '#')
  decide (1 ≤ hs.length) && decide (hs.length ≤ 6) &&
    (match rest with | [] => false | c :: _ => pyIsSpace c) &&
    !(rest.dropWhile pyIsSpace).isEmpty

/-- The anchor derived from one heading line, as `collect_anchors` computes
it: `re.sub(r"^\s*#{1,6}\s+", "", line).strip()` (on a line that passed
`isHeadingLine`, this drops the leading whitespace, the whole hash run and
the whitespace run after it), lower-cased, characters that are neither word
characters nor whitespace nor hyphens removed, whitespace runs collapsed to
single hyphens, leading/trailing hyphens stripped. -/
def anchorOf (l : Str) : Str :=
  let t := l.dropWhile pyIsSpace
  let heading := pyStrip ((t.dropWhile (fun c => c = '#')).dropWhile pyIsSpace)
  let low := lowerStr heading
  let kept := low.filter (fun c => pyIsWord c || pyIsSpace c || c = '-')
  stripHyphens (reSubWsRuns kept)

/-- Insertion into a Python-set model: membership semantics, first-insertion
order. -/
def setInsert (s : List Str) (a : Str) : List Str :=
  if a ∈ s then s else s ++ [a]

/-- One line's contribution to the anchor set. -/
def anchorStep (acc : List Str) (l : Str) : List Str :=
  if isHeadingLine l then setInsert acc (anchorOf l) else acc

/-- `collect_anchors` from kb_ci_runner.py: the set of anchors of all heading
lines. -/
def collect_anchors (md : Str) : List Str :=
  (pySplitlines md).foldl anchorStep []

/-- The character class `[^\s)]` of KB_REF_PATTERN. -/
def isRefChar (c : Char) : Bool := !pyIsSpace c && !(c = ')')

/-- The scanner for `KB_REF_PATTERN.finditer`: the pattern
`KB:/[^\s)]+(?:#[\w\-]+)?` with IGNORECASE. Because `[^\s)]+` is greedy and
`#` itself is in the class, the optional anchor group always matches empty,
so a match is some casing of `KB:` then `/` then a maximal nonempty run of
non-whitespace non-`)` characters. Matches are found left to right and do not
overlap. The fuel starts at the input length; every step consumes at least
one input character and one unit of fuel, so the fuel never runs out. -/
def kbMatchesGo : Nat → Str → List Str
  | 0, _ => []
  | _ + 1, [] => []
  | fuel + 1, k :: b :: c1 :: c2 :: c3 :: rest =>
      if (k = 'K' || k = 'k') && (b = 'B' || b = 'b') && c1 = ':' && c2 = '/'
          && isRefChar c3 then
        (k :: b :: c1 :: c2 :: c3 :: rest.takeWhile isRefChar)
          :: kbMatchesGo fuel (rest.dropWhile isRefChar)
      else
        kbMatchesGo fuel (b :: c1 :: c2 :: c3 :: rest)
  | fuel + 1, _ :: rest => kbMatchesGo fuel rest

/-- All raw matches of KB_REF_PATTERN in the text. -/
def kbMatches (s : Str) : List Str := kbMatchesGo s.length s

/-- `raw.replace("KB:", "")`: every occurrence of the exact (case-sensitive)
three-character string is removed, scanning left to right. -/
def removeKBTokens : Str → Str
  | 'K' :: 'B' :: ':' :: rest => removeKBTokens rest
  | c :: rest => c :: removeKBTokens rest
  | [] => []

/-- `raw.split("#", 1)` packaged with the no-hash case of `collect_kb_refs`:
the part before the first `#` and the part after it (empty when there is no
`#`). -/
def splitRaw (raw : Str) : Str × Str :=
  if '#' ∈ raw then
    (raw.takeWhile (fun c => !(c = '#')), (raw.dropWhile (fun c => !(c = '#'))).drop 1)
  else (raw, [])

/-- `collect_kb_refs` from kb_ci_runner.py: each raw match is split once at
the first `#` when one is present, and `"KB:"` is removed (case-sensitively)
from the pre-hash part to give the target slug; the post-hash part is the
anchor. -/
def collect_kb_refs (md : Str) : List (Str × Str) :=
  (kbMatches md).map (fun raw => (removeKBTokens (splitRaw raw).1, (splitRaw raw).2))

/-- Splitting once at the first hash, stated by direct recursion (the
specification's "split once on the first `#`"). -/
def splitAtHash : Str → Str × Str
  | [] => ([], [])
  | c :: rest =>
      if c = '#' then ([], rest)
      else (c :: (splitAtHash rest).1, (splitAtHash rest).2)

/-- The reference a raw match yields according to claim C1 as stated: the
part before the first `#` with the leading `KB:` token (its first three
characters, whatever their casing) removed, and the part after the `#`. -/
def claimRefOfRaw (raw : Str) : Str × Str :=
  ((splitAtHash raw).1.drop 3, (splitAtHash raw).2)

/-- `detect_type` from kb_ci_runner.py, on the relative path's components:
the first component lower-cased decides the kind. -/
def detect_type (parts : List Str) : Str :=
  match parts with
  | [] => "other".data
  | p :: _ =>
      if lowerStr p = "encyclopedia".data then "encyclopedia".data
      else if lowerStr p = "synthesis".data then "synthesis".data
      else "other".data

/-- `s` is a casing of the lowercase ASCII word `w`: same length, and each
character is either the word's own letter or its ASCII uppercase. -/
def isAsciiCasingOf (s w : Str) : Prop :=
  List.Forall₂ (fun c d => c = d ∨ c = Char.toUpper d) s w

/-- One Registry entry, the record `scan_repository` stores per slug. -/
structure Entry where
  slug : Str
  title : Str
  type : Str
  file : Str
  updated_utc : Str
deriving DecidableEq, Repr

/-- One document of the corpus as the scanner sees it: its path relative to
the knowledge root as a list of components, its text, and its modification
time already formatted by `iso_utc` (file enumeration and timestamp
formatting are external collaborators). -/
structure MdFile where
  parts : List Str
  content : Str
  mtime : Str
deriving DecidableEq, Repr

/-- A Python dict as an association list in insertion order: assigning to an
existing key keeps its position and replaces its value. -/
def dictInsert {β : Type} (d : List (Str × β)) (k : Str) (v : β) : List (Str × β) :=
  match d with
  | [] => [(k, v)]
  | p :: rest =>
      if p.1 = k then (k, v) :: rest else p :: dictInsert rest k v

/-- `k in d` for a dict. -/
def hasKey {β : Type} (d : List (Str × β)) (k : Str) : Bool :=
  d.any (fun p => decide (p.1 = k))

/-- `d.get(k)` for a dict. -/
def dictGet {β : Type} (d : List (Str × β)) (k : Str) : Option β :=
  (d.find? (fun p => decide (p.1 = k))).map (fun p => p.2)

/-- The f-string of the broken-reference error. -/
def brokenMsg (src tgt : Str) : Str :=
  "Broken ref: ".data ++ src ++ " -> ".data ++ tgt

/-- The f-string of the under-linked synthesis error. -/
def synthMsg (slug : Str) : Str :=
  "Synthesis needs >=3 related: ".data ++ slug

/-- The f-string of the orphan warning. -/
def orphanMsg (slug : Str) : Str :=
  "Orphan: ".data ++ slug

/-- `inbound[tgt] += 1`: add one to the value at a key (the caller has
checked the key is present). -/
def bumpKey : List (Str × Nat) → Str → List (Str × Nat)
  | [], _ => []
  | p :: rest, k =>
      if p.1 = k then (p.1, p.2 + 1) :: rest else p :: bumpKey rest k

/-- `inbound = ⟨slug: 0 for slug in registry⟩`. -/
def initInbound (registry : List (Str × Entry)) : List (Str × Nat) :=
  registry.map (fun p => (p.1, 0))

/-- The body of lint's reference loop, for one target of one source: an
existing target's inbound count is bumped, a missing one records one broken
reference error. -/
def refStep (src : Str) (acc : List (Str × Nat) × List Str) (tgt : Str) :
    List (Str × Nat) × List Str :=
  if hasKey acc.1 tgt then (bumpKey acc.1 tgt, acc.2)
  else (acc.1, acc.2 ++ [brokenMsg src tgt])

/-- Lint's first pass over the Reference Graph: the final inbound counts and
the broken-reference errors in discovery order. -/
def edgeStep (acc : List (Str × Nat) × List Str) (p : Str × List Str) :
    List (Str × Nat) × List Str :=
  p.2.foldl (refStep p.1) acc

def lintPhase1 (registry : List (Str × Entry)) (cross : List (Str × List Str)) :
    List (Str × Nat) × List Str :=
  cross.foldl edgeStep (initInbound registry, [])

/-- `len(cross.get(slug, {}).get("refs", []))`: the stored outbound-target
count of a slug, zero when the slug is absent from the graph. -/
def outCount (cross : List (Str × List Str)) (slug : Str) : Nat :=
  ((dictGet cross slug).getD []).length

/-- Lint's second pass: the synthesis-threshold errors, appended to the
errors of the first pass. -/
def synthStep (cross : List (Str × List Str)) (es : List Str) (p : Str × Entry) :
    List Str :=
  if p.2.type = "synthesis".data then
    if outCount cross p.1 < 3 then es ++ [synthMsg p.1] else es
  else es

def lintPhase2 (registry : List (Str × Entry)) (cross : List (Str × List Str))
    (errs : List Str) : List Str :=
  registry.foldl (synthStep cross) errs

/-- Lint's warning pass over the inbound counts. -/
def warnStep (ws : List Str) (p : Str × Nat) : List Str :=
  if p.2 = 0 then ws ++ [orphanMsg p.1] else ws

def lintWarnings (inbound : List (Str × Nat)) : List Str :=
  inbound.foldl warnStep []

/-- `lint_repository` from kb_ci_runner.py. The Python function also receives
the anchor sets and never reads them, so they are omitted here. -/
def lint_repository (registry : List (Str × Entry)) (cross : List (Str × List Str)) :
    List Str × List Str :=
  let r := lintPhase1 registry cross
  (lintPhase2 registry cross r.2, lintWarnings r.1)

/-- The file name of a document (the last path component). -/
def lastPart (parts : List Str) : Str := (parts.getLast?).getD []

/-- `str(path.relative_to(KB_ROOT))` with `/` as separator. -/
def fileField (parts : List Str) : Str := joinSlash parts

/-- The slug the scan derives for a document: a function of the path only. -/
def slugOfFile (f : MdFile) : Str := slugify_path f.parts

/-- The title the scan derives: `extract_title(md, path.stem)`. -/
def titleOfFile (f : MdFile) : Str :=
  extract_title f.content (pyStem (lastPart f.parts))

/-- The Registry record the scan builds for one document. -/
def entryOf (f : MdFile) : Entry :=
  { slug := slugOfFile f, title := titleOfFile f, type := detect_type f.parts,
    file := fileField f.parts, updated_utc := f.mtime }

/-- The three maps `scan_repository` assembles. -/
structure ScanResult where
  registry : List (Str × Entry)
  cross : List (Str × List Str)
  anchors : List (Str × List Str)
deriving DecidableEq, Repr

/-- One step of the scan. The stored reference list is Python's
`list({s for s, _ in refs})`: the distinct target slugs in an order CPython
does not fix across processes (string hashing is salted per run), so the
scanner is parametrised by `setList`, the set-to-list enumeration the run
happens to use; `validSetList` below states exactly what Python guarantees
of it. -/
def scanStep (setList : List Str → List Str) (acc : ScanResult) (f : MdFile) :
    ScanResult :=
  let slug := slugOfFile f
  let refs := collect_kb_refs f.content
  { registry := dictInsert acc.registry slug (entryOf f)
    cross := if refs.isEmpty then acc.cross
             else dictInsert acc.cross slug (setList (refs.map (fun r => r.1)))
    anchors := dictInsert acc.anchors slug (collect_anchors f.content) }

/-- `scan_repository` from kb_ci_runner.py, over the already-enumerated list
of Markdown files. -/
def scan_repository (setList : List Str → List Str) (files : List MdFile) :
    ScanResult :=
  files.foldl (scanStep setList) ⟨[], [], []⟩

/-- What Python guarantees of a set-to-list enumeration: the distinct
elements, each exactly once, in some order. -/
def validSetList (o : List Str → List Str) : Prop :=
  ∀ l, (o l).Nodup ∧ ∀ x, x ∈ o l ↔ x ∈ l

/-- The registry fold on its own (the scan's registry never depends on the
set enumeration). -/
def regStep (acc : List (Str × Entry)) (f : MdFile) : List (Str × Entry) :=
  dictInsert acc (slugOfFile f) (entryOf f)

/-- The anchors fold on its own. -/
def anchStep (acc : List (Str × List Str)) (f : MdFile) : List (Str × List Str) :=
  dictInsert acc (slugOfFile f) (collect_anchors f.content)

/-- The cross fold before set conversion: the raw target list of each source
that has one. -/
def rawCrossStep (acc : List (Str × List Str)) (f : MdFile) : List (Str × List Str) :=
  if (collect_kb_refs f.content).isEmpty then acc
  else dictInsert acc (slugOfFile f) ((collect_kb_refs f.content).map (fun r => r.1))

/-- The raw reference graph of a corpus (targets with duplicates, in match
order). -/
def rawCross (files : List MdFile) : List (Str × List Str) :=
  files.foldl rawCrossStep []

/-- Apply a set enumeration to every stored target list. -/
def mapValues (o : List Str → List Str) (d : List (Str × List Str)) :
    List (Str × List Str) :=
  d.map (fun p => (p.1, o p.2))

/-- One concrete valid set enumeration: keep the first occurrence of each
element. -/
def dedupFirst (l : List Str) : List Str :=
  l.foldl setInsert []

/-- Another concrete valid set enumeration: the same elements, backwards. -/
def dedupFirstRev (l : List Str) : List Str := (dedupFirst l).reverse

/-- All targets of all edges of a reference graph, with multiplicity. -/
def allTargets (cross : List (Str × List Str)) : List Str :=
  (cross.map (fun p => p.2)).flatten

/-- Occurrence count in a list (with `decide`-normal equality). -/
def countOcc {α : Type} [DecidableEq α] (a : α) (l : List α) : Nat :=
  (l.filter (fun x => decide (x = a))).length

/-- A throwaway Registry record for concrete lint instances. -/
def mkEntry (slug kind : Str) : Entry :=
  { slug := slug, title := "T".data, type := kind, file := "f".data,
    updated_utc := "t".data }

/-- A concrete corpus file that references `/encyclopedia/b` twice. -/
def exFileA : MdFile :=
  ⟨["encyclopedia".data, "a.md".data],
   "# A\nSee KB:/encyclopedia/b and KB:/encyclopedia/b again".data, "t1".data⟩

/-- A concrete corpus file with no references. -/
def exFileB : MdFile :=
  ⟨["encyclopedia".data, "b.md".data], "# B".data, "t2".data⟩

/-- A concrete corpus file with two distinct references, for the scan-order
instances. -/
def exScanFile : MdFile :=
  ⟨["a.md".data], "KB:/x KB:/y".data, "t".data⟩

/-! ## Theorems -/

/-- The split of `collect_kb_refs` (membership test, `takeWhile`, `dropWhile`)
is the direct split-once-at-the-first-hash recursion. -/
theorem splitRaw_eq_splitAtHash (raw : Str) : splitRaw raw = splitAtHash raw := by
  induction raw with
  | nil => rfl
  | cons c rest ih =>
    by_cases hc : c = '#'
    · subst hc
      simp [splitRaw, splitAtHash]
    · simp only [splitAtHash, if_neg hc, ← ih]
      by_cases hm : '#' ∈ rest
      · have hmem : '#' ∈ c :: rest := List.mem_cons_of_mem _ hm
        simp only [splitRaw, if_pos hmem, if_pos hm]
        simp [List.takeWhile_cons, List.dropWhile_cons, hc]
      · have hmem : '#' ∉ c :: rest := by
          simp only [List.mem_cons, not_or]
          exact ⟨fun e => hc e.symm, hm⟩
        simp only [splitRaw, if_neg hmem, if_neg hm]

/-- Claim C1, counterexample. The claim says every match (the `KB:` token
matched case-insensitively) has its leading `KB:` token removed to form the
target. The code removes only exact occurrences of the uppercase `KB:` string
(`str.replace` is case-sensitive), so the lowercase match in `kb:/x` keeps its
token: the code returns target `kb:/x` where the claim requires `/x`. -/
theorem claim_C1_counterexample :
    ¬ (∀ md : Str, collect_kb_refs md = (kbMatches md).map claimRefOfRaw) := by
  intro h
  exact absurd (h "kb:/x".data) (by decide)

/-- Claim C1, amended: reference extraction finds every occurrence of the
pattern (`KB:` case-insensitively, then `/`, then a maximal run of
non-whitespace non-`)` characters), splits each match once on the first `#`
(anchor empty when there is none), and removes every occurrence of the exact
uppercase string `KB:` from the pre-hash part to form the target — so a match
whose token is not spelled exactly `KB:` keeps its token. The spec's example
`See KB:/encyclopedia/foo#bar-baz for more` yields
(`/encyclopedia/foo`, `bar-baz`); the lowercase `kb:/x` is matched but yields
target `kb:/x`. -/
theorem claim_C1_amended :
    (∀ md : Str, collect_kb_refs md =
      (kbMatches md).map
        (fun raw => (removeKBTokens (splitAtHash raw).1, (splitAtHash raw).2)))
    ∧ collect_kb_refs "See KB:/encyclopedia/foo#bar-baz for more".data
        = [("/encyclopedia/foo".data, "bar-baz".data)]
    ∧ collect_kb_refs "kb:/x".data = [("kb:/x".data, [])] := by
  refine ⟨fun md => ?_, by decide, by decide⟩
  simp only [collect_kb_refs]
  congr 1
  funext raw
  rw [splitRaw_eq_splitAtHash]

/-- The title scan returns the transform of the first line accepted by the
heading test. -/
theorem titleLoop_eq_find (ls : List Str) :
    titleLoop ls =
      (ls.find? (fun l => ("# ".data).isPrefixOf (pyStrip l))).map
        (fun l => pyStrip ((pyStrip l).drop 2)) := by
  induction ls with
  | nil => rfl
  | cons l ls ih =>
    by_cases hp : ("# ".data).isPrefixOf (pyStrip l) = true
    · simp [titleLoop, List.find?_cons, hp]
    · simp only [Bool.not_eq_true] at hp
      simp [titleLoop, List.find?_cons, hp, ih]

/-- Claim C6, counterexample. The claim derives the fallback title from the
filename stem. The code passes `path.stem` to `extract_title`, which takes
`Path(fallback).stem` again, so a dotted stem loses one more suffix: for a
document named `a.b.md` with no level-1 heading the filename stem is `a.b`
and the claim requires title `A.B`, but the code titles it `A`. -/
theorem claim_C6_counterexample :
    ¬ (∀ f : MdFile, titleLoop (pySplitlines f.content) = none →
        titleOfFile f = pyTitle (hyphensToSpaces (pyStem (lastPart f.parts)))) := by
  intro h
  exact absurd (h ⟨["a.b.md".data], [], "t".data⟩ (by decide)) (by decide)

/-- Claim C6, amended: the title is the text of the first line whose stripped
text starts with `#` followed by a space (deeper and later headings ignored);
with no such line, the title comes from the filename stem with any remaining
dot-suffix stripped once more, hyphens replaced by spaces and the result
title-cased. `# Hello World` still titles `Hello World`, and `my-entry.md`
with no heading still titles `My Entry`; `a.b.md` with no heading titles `A`. -/
theorem claim_C6_amended :
    (∀ md fb : Str, extract_title md fb =
      match (pySplitlines md).find? (fun l => ("# ".data).isPrefixOf (pyStrip l)) with
      | some l => pyStrip ((pyStrip l).drop 2)
      | none => pyTitle (hyphensToSpaces (pyStem fb)))
    ∧ (∀ f : MdFile, titleLoop (pySplitlines f.content) = none →
        titleOfFile f = pyTitle (hyphensToSpaces (pyStem (pyStem (lastPart f.parts)))))
    ∧ extract_title "# Hello World".data "x".data = "Hello World".data
    ∧ titleOfFile ⟨["my-entry.md".data], [], "t".data⟩ = "My Entry".data
    ∧ titleOfFile ⟨["a.b.md".data], [], "t".data⟩ = "A".data := by
  refine ⟨fun md fb => ?_, fun f hf => ?_, by decide, by decide, by decide⟩
  · rw [extract_title, titleLoop_eq_find]
    cases (pySplitlines md).find? (fun l => ("# ".data).isPrefixOf (pyStrip l)) with
    | none => rfl
    | some l => rfl
  · rw [titleOfFile, extract_title, hf]

/-- Membership in the Python-set model. -/
theorem mem_setInsert (s : List Str) (b a : Str) :
    a ∈ setInsert s b ↔ a ∈ s ∨ a = b := by
  unfold setInsert
  split
  · rename_i hb
    constructor
    · exact Or.inl
    · rintro (h | rfl)
      · exact h
      · exact hb
  · simp

/-- The Python-set model never stores duplicates. -/
theorem nodup_setInsert (s : List Str) (b : Str) (h : s.Nodup) :
    (setInsert s b).Nodup := by
  unfold setInsert
  split
  · exact h
  · rename_i hb
    simp [List.nodup_append, h, hb]

/-- Membership in the anchor fold: an element of the accumulator, or the
anchor of some heading line already processed. -/
theorem anchors_fold_mem (ls : List Str) (acc : List Str) (a : Str) :
    a ∈ ls.foldl anchorStep acc ↔
      a ∈ acc ∨ ∃ l, l ∈ ls ∧ isHeadingLine l = true ∧ anchorOf l = a := by
  induction ls generalizing acc with
  | nil => simp
  | cons l ls ih =>
    simp only [List.foldl_cons, ih, anchorStep]
    by_cases hl : isHeadingLine l = true
    · simp only [if_pos hl, mem_setInsert]
      constructor
      · rintro ((h | rfl) | h)
        · exact Or.inl h
        · exact Or.inr ⟨l, List.mem_cons_self l ls, hl, rfl⟩
        · rcases h with ⟨l', hmem, hh, ha⟩
          exact Or.inr ⟨l', List.mem_cons_of_mem _ hmem, hh, ha⟩
      · rintro (h | ⟨l', hmem, hh, ha⟩)
        · exact Or.inl (Or.inl h)
        · rcases List.mem_cons.mp hmem with rfl | hmem'
          · exact Or.inl (Or.inr ha.symm)
          · exact Or.inr ⟨l', hmem', hh, ha⟩
    · simp only [if_neg hl]
      constructor
      · rintro (h | ⟨l', hmem, hh, ha⟩)
        · exact Or.inl h
        · exact Or.inr ⟨l', List.mem_cons_of_mem _ hmem, hh, ha⟩
      · rintro (h | ⟨l', hmem, hh, ha⟩)
        · exact Or.inl h
        · rcases List.mem_cons.mp hmem with rfl | hmem'
          · exact absurd hh hl
          · exact Or.inr ⟨l', hmem', hh, ha⟩

/-- The anchor fold preserves duplicate-freeness. -/
theorem anchors_fold_nodup (ls : List Str) (acc : List Str) (h : acc.Nodup) :
    (ls.foldl anchorStep acc).Nodup := by
  induction ls generalizing acc with
  | nil => exact h
  | cons l ls ih =>
    simp only [List.foldl_cons, anchorStep]
    by_cases hl : isHeadingLine l = true
    · simp only [if_pos hl]
      exact ih _ (nodup_setInsert _ _ h)
    · simp only [if_neg hl]
      exact ih _ h

/-- Claim C7: the anchor set of a document contains exactly the normalized
anchors of its heading lines (one to six hashes, whitespace, content), as a
duplicate-free set; the heading `## The Quick, Brown Fox!` yields the single
anchor `the-quick-brown-fox`, and `#NoSpace` contributes no anchor. -/
theorem claim_C7 :
    (∀ (md : Str) (a : Str), a ∈ collect_anchors md ↔
      ∃ l, l ∈ pySplitlines md ∧ isHeadingLine l = true ∧ anchorOf l = a)
    ∧ (∀ md : Str, (collect_anchors md).Nodup)
    ∧ collect_anchors "## The Quick, Brown Fox!".data = ["the-quick-brown-fox".data]
    ∧ collect_anchors "#NoSpace".data = [] := by
  refine ⟨fun md a => ?_, fun md => ?_, by decide, by decide⟩
  · rw [collect_anchors, anchors_fold_mem]
    simp
  · exact anchors_fold_nodup _ _ List.nodup_nil

/-- Claim C8, counterexample. The claim's slug formula has no trimming step,
but the code strips the joined slug before replacing whitespace: for the file
name `b .md` directly under the root (its stem `b ` ends with a space) the
code derives `/b` while the claimed formula gives `/b-`. -/
theorem claim_C8_counterexample :
    ¬ (∀ parts : List Str, slugify_path parts = slugify_path_claim parts) := by
  intro h
  exact absurd (h ["b .md".data]) (by decide)

/-- Claim C8, amended: the derived slug is a function of the path alone
(identical across runs, independent of content and modification time), and it
equals the claimed formula — relative path with the extension stripped,
prefixed with `/`, whitespace runs to single hyphens, repeated separators
collapsed — after the joined slug is first trimmed of leading and trailing
whitespace; the formula as originally stated therefore holds exactly when
that trim is the identity, as hypothesised here. -/
theorem claim_C8_amended (parts : List Str)
    (h : pyStrip ('/' :: joinSlash (updateLast pyStem parts))
          = '/' :: joinSlash (updateLast pyStem parts)) :
    slugify_path parts = slugify_path_claim parts
    ∧ ∀ c₁ m₁ c₂ m₂ : Str,
        slugOfFile ⟨parts, c₁, m₁⟩ = slugOfFile ⟨parts, c₂, m₂⟩ := by
  constructor
  · rw [slugify_path, slugify_path_claim, h]
  · intro c₁ m₁ c₂ m₂
    rfl

/-- Witness for claim C8 at the concrete path `encyclopedia/My File.md`. -/
theorem claim_C8_witness :
    slugify_path ["encyclopedia".data, "My File.md".data]
        = slugify_path_claim ["encyclopedia".data, "My File.md".data]
    ∧ ∀ c₁ m₁ c₂ m₂ : Str,
        slugOfFile ⟨["encyclopedia".data, "My File.md".data], c₁, m₁⟩
          = slugOfFile ⟨["encyclopedia".data, "My File.md".data], c₂, m₂⟩ :=
  claim_C8_amended ["encyclopedia".data, "My File.md".data] (by decide)

/-- Characters are determined by their code points. -/
theorem char_toNat_inj (c d : Char) (h : c.toNat = d.toNat) : c = d := by
  rw [← Char.ofNat_toNat c, ← Char.ofNat_toNat d, h]

/-- Below the surrogate range, `Char.ofNat` keeps the code point. -/
theorem toNat_ofNat_valid (n : Nat) (h : n < 55296) : (Char.ofNat n).toNat = n := by
  have hv : n.isValidChar := Or.inl h
  simp [Char.ofNat, hv]
  rfl

/-- For a lowercase ASCII letter `d`, the characters lowering to `d` are
exactly `d` and its uppercase. -/
theorem toLower_eq_iff (d c : Char) (hd1 : 97 ≤ d.toNat) (hd2 : d.toNat ≤ 122) :
    c.toLower = d ↔ (c = d ∨ c = d.toUpper) := by
  have hud : d.toUpper = Char.ofNat (d.toNat - 32) := by
    rw [Char.toUpper]
    simp only [ge_iff_le]
    rw [if_pos ⟨hd1, hd2⟩]
  have hudn : d.toUpper.toNat = d.toNat - 32 := by
    rw [hud, toNat_ofNat_valid _ (by omega)]
  rw [Char.toLower]
  simp only [ge_iff_le]
  by_cases hc : 65 ≤ c.toNat ∧ c.toNat ≤ 90
  · rw [if_pos hc]
    constructor
    · intro he
      right
      apply char_toNat_inj
      have : (Char.ofNat (c.toNat + 32)).toNat = d.toNat := by rw [he]
      rw [toNat_ofNat_valid _ (by omega)] at this
      omega
    · rintro (rfl | rfl)
      · omega
      · apply char_toNat_inj
        rw [toNat_ofNat_valid _ (by omega), hudn]
        omega
  · rw [if_neg hc]
    constructor
    · exact Or.inl
    · rintro (rfl | rfl)
      · rfl
      · exfalso
        rw [hudn] at hc
        omega

/-- For a lowercase ASCII word `w`, a string lower-cases to `w` exactly when
it is a casing of `w`. -/
theorem lowerStr_eq_iff (w : Str) (hw : ∀ d ∈ w, 97 ≤ d.toNat ∧ d.toNat ≤ 122) :
    ∀ s : Str, lowerStr s = w ↔ isAsciiCasingOf s w := by
  induction w with
  | nil =>
    intro s
    cases s with
    | nil => simp [lowerStr, isAsciiCasingOf]
    | cons c cs => simp [lowerStr, isAsciiCasingOf]
  | cons d ds ih =>
    intro s
    cases s with
    | nil => simp [lowerStr, isAsciiCasingOf]
    | cons c cs =>
      have hd := hw d (List.mem_cons_self d ds)
      have hds : ∀ x ∈ ds, 97 ≤ x.toNat ∧ x.toNat ≤ 122 :=
        fun x hx => hw x (List.mem_cons_of_mem _ hx)
      have ihds := ih hds cs
      simp only [lowerStr, List.map_cons, List.cons.injEq, isAsciiCasingOf,
        List.forall₂_cons]
      rw [toLower_eq_iff d c hd.1 hd.2]
      rw [lowerStr] at ihds
      rw [ihds]
      rfl

/-- Claim C10: the entry kind compares the top-level component
case-insensitively — it is `encyclopedia` exactly for casings of
`encyclopedia`, `synthesis` exactly for casings of `synthesis`, and `other`
for every other first component, a file directly at the root included. -/
theorem claim_C10 :
    (∀ (p : Str) (rest : List Str),
      (detect_type (p :: rest) = "encyclopedia".data ↔
        isAsciiCasingOf p ("encyclopedia".data))
      ∧ (detect_type (p :: rest) = "synthesis".data ↔
        isAsciiCasingOf p ("synthesis".data))
      ∧ (¬ isAsciiCasingOf p ("encyclopedia".data) →
         ¬ isAsciiCasingOf p ("synthesis".data) →
         detect_type (p :: rest) = "other".data))
    ∧ detect_type ["Encyclopedia".data, "x.md".data] = "encyclopedia".data
    ∧ detect_type ["ENCYCLOPEDIA".data] = "encyclopedia".data
    ∧ detect_type ["SyNtHeSiS".data, "y.md".data] = "synthesis".data
    ∧ detect_type ["notes".data, "x.md".data] = "other".data
    ∧ detect_type ["readme.md".data] = "other".data := by
  have henc : ∀ d ∈ ("encyclopedia".data : Str), 97 ≤ d.toNat ∧ d.toNat ≤ 122 := by
    decide
  have hsyn : ∀ d ∈ ("synthesis".data : Str), 97 ≤ d.toNat ∧ d.toNat ≤ 122 := by
    decide
  refine ⟨fun p rest => ?_, by decide, by decide, by decide, by decide, by decide⟩
  rw [← lowerStr_eq_iff _ henc p, ← lowerStr_eq_iff _ hsyn p]
  by_cases h1 : lowerStr p = "encyclopedia".data
  · have h2 : ¬ lowerStr p = "synthesis".data := by
      rw [h1]; decide
    simp [detect_type, h1, h2]
  · by_cases h2 : lowerStr p = "synthesis".data
    · simp [detect_type, h1, h2]
    · simp [detect_type, h1, h2]

/-- Counting in the empty list. -/
theorem countOcc_nil {α : Type} [DecidableEq α] (a : α) : countOcc a ([] : List α) = 0 := rfl

/-- Counting through one cons. -/
theorem countOcc_cons {α : Type} [DecidableEq α] (a b : α) (l : List α) :
    countOcc a (b :: l) = (if b = a then 1 else 0) + countOcc a l := by
  by_cases h : b = a
  · simp [countOcc, List.filter_cons, h, Nat.add_comm]
  · simp [countOcc, List.filter_cons, h]

/-- Counting distributes over append. -/
theorem countOcc_append {α : Type} [DecidableEq α] (a : α) (l₁ l₂ : List α) :
    countOcc a (l₁ ++ l₂) = countOcc a l₁ + countOcc a l₂ := by
  simp [countOcc, List.filter_append]

/-- An injective map preserves occurrence counts. -/
theorem countOcc_map_inj {α β : Type} [DecidableEq α] [DecidableEq β]
    (f : α → β) (hf : ∀ x y, f x = f y → x = y) (a : α) (l : List α) :
    countOcc (f a) (l.map f) = countOcc a l := by
  induction l with
  | nil => rfl
  | cons b l ih =>
    rw [List.map_cons, countOcc_cons, countOcc_cons, ih]
    by_cases h : b = a
    · simp [h]
    · have : ¬ f b = f a := fun e => h (hf _ _ e)
      simp [h, this]

/-- In a duplicate-free list a member occurs exactly once. -/
theorem countOcc_nodup_mem {α : Type} [DecidableEq α] (a : α) (l : List α)
    (hn : l.Nodup) (hm : a ∈ l) : countOcc a l = 1 := by
  induction l with
  | nil => cases hm
  | cons b l ih =>
    rw [countOcc_cons]
    rcases List.mem_cons.mp hm with rfl | hm'
    · have : a ∉ l := (List.nodup_cons.mp hn).1
      have hz : countOcc a l = 0 := by
        simp [countOcc, List.filter_eq_nil_iff]
        intro x hx e
        exact this (e ▸ hx)
      simp [hz]
    · have hb : ¬ b = a := by
        rintro rfl
        exact (List.nodup_cons.mp hn).1 hm'
      simp [hb, ih (List.nodup_cons.mp hn).2 hm']

-- hasKey lemmas
/-- Key membership is membership among the mapped keys. -/
theorem hasKey_iff_mem {β : Type} (d : List (Str × β)) (k : Str) :
    hasKey d k = true ↔ k ∈ d.map Prod.fst := by
  induction d with
  | nil => simp [hasKey]
  | cons p d ih =>
    simp only [hasKey, List.any_cons, List.map_cons, List.mem_cons] at *
    constructor
    · intro h
      rcases Bool.or_eq_true_iff.mp h with h1 | h2
      · exact Or.inl (of_decide_eq_true h1).symm
      · exact Or.inr (ih.mp h2)
    · rintro (rfl | h)
      · simp
      · simp [ih.mpr h]

/-- Key membership only depends on the key list. -/
theorem hasKey_congr {β γ : Type} (d : List (Str × β)) (d' : List (Str × γ))
    (h : d.map Prod.fst = d'.map Prod.fst) (k : Str) : hasKey d k = hasKey d' k := by
  rcases hb : hasKey d' k with _ | _
  · rcases hc : hasKey d k with _ | _
    · rfl
    · rw [hasKey_iff_mem, h, ← hasKey_iff_mem] at hc
      rw [hc] at hb
      cases hb
  · rw [hasKey_iff_mem, ← h, ← hasKey_iff_mem] at hb
    exact hb

/-- Bumping a count never changes the key list. -/
theorem map_fst_bumpKey (d : List (Str × Nat)) (k : Str) :
    (bumpKey d k).map Prod.fst = d.map Prod.fst := by
  induction d with
  | nil => rfl
  | cons p d ih =>
    rcases p with ⟨k', v⟩
    by_cases h : k' = k
    · simp [bumpKey, h]
    · simp [bumpKey, h, ih]
/-- The reference loop of one source: the keys of the inbound map never
change, and the errors grow by one broken-reference message per target
missing from the inbound keys, in order. -/
theorem refFold_spec (src : Str) (ts : List Str) (inb : List (Str × Nat)) (errs : List Str) :
    ((ts.foldl (refStep src) (inb, errs)).1.map Prod.fst = inb.map Prod.fst)
    ∧ (ts.foldl (refStep src) (inb, errs)).2
        = errs ++ (ts.filter (fun t => !hasKey inb t)).map (brokenMsg src) := by
  induction ts generalizing inb errs with
  | nil => simp
  | cons t ts ih =>
    simp only [List.foldl_cons, refStep]
    by_cases ht : hasKey inb t = true
    · rw [if_pos ht]
      have hkeys : ∀ x, hasKey (bumpKey inb t) x = hasKey inb x :=
        fun x => hasKey_congr _ _ (map_fst_bumpKey inb t) x
      rcases ih (bumpKey inb t) errs with ⟨h1, h2⟩
      refine ⟨by rw [h1, map_fst_bumpKey], ?_⟩
      rw [h2, List.filter_cons]
      simp only [ht, Bool.not_true, hkeys]
      rfl
    · rw [if_neg ht]
      rcases ih inb (errs ++ [brokenMsg src t]) with ⟨h1, h2⟩
      refine ⟨h1, ?_⟩
      rw [h2, List.filter_cons]
      have : (!hasKey inb t) = true := by
        simp [Bool.not_eq_true'] at ht ⊢
        exact Bool.not_eq_true _ ▸ (by simpa using ht)
      simp only [this, if_pos]
      simp [List.append_assoc]
/-- The edge loop over the whole graph: inbound keys unchanged, errors the
concatenation of each source's broken-reference messages. -/
theorem edgeFold_spec (cross : List (Str × List Str)) (inb : List (Str × Nat)) (errs : List Str) :
    ((cross.foldl edgeStep (inb, errs)).1.map Prod.fst = inb.map Prod.fst)
    ∧ (cross.foldl edgeStep (inb, errs)).2
        = errs ++ (cross.map
            (fun p => (p.2.filter (fun t => !hasKey inb t)).map (brokenMsg p.1))).flatten := by
  induction cross generalizing inb errs with
  | nil => simp
  | cons p cs ih =>
    simp only [List.foldl_cons]
    rcases hX : edgeStep (inb, errs) p with ⟨inb₁, errs₁⟩
    have hX1 : inb₁.map Prod.fst = inb.map Prod.fst := by
      have := (refFold_spec p.1 p.2 inb errs).1
      rw [show (p.2.foldl (refStep p.1) (inb, errs)) = (inb₁, errs₁) from hX] at this
      exact this
    have hX2 : errs₁ = errs ++ (p.2.filter (fun t => !hasKey inb t)).map (brokenMsg p.1) := by
      have := (refFold_spec p.1 p.2 inb errs).2
      rw [show (p.2.foldl (refStep p.1) (inb, errs)) = (inb₁, errs₁) from hX] at this
      exact this
    rcases ih inb₁ errs₁ with ⟨h1, h2⟩
    have hkeys : ∀ x, hasKey inb₁ x = hasKey inb x :=
      fun x => hasKey_congr _ _ hX1 x
    refine ⟨by rw [h1, hX1], ?_⟩
    rw [h2, hX2]
    simp only [hkeys, List.map_cons, List.flatten_cons, List.append_assoc]
/-- With duplicate-free keys, bumping is a pointwise update of the one entry
at the key. -/
theorem bumpKey_spec (d : List (Str × Nat)) (t : Str) (hd : (d.map Prod.fst).Nodup) :
    bumpKey d t = d.map (fun p => (p.1, if p.1 = t then p.2 + 1 else p.2)) := by
  induction d with
  | nil => rfl
  | cons p d ih =>
    rcases p with ⟨k, v⟩
    simp only [List.map_cons] at hd ⊢
    rcases List.nodup_cons.mp hd with ⟨hk, hd'⟩
    by_cases h : k = t
    · subst h
      have htail : d.map (fun p => (p.1, if p.1 = k then p.2 + 1 else p.2)) = d := by
        have hcg : ∀ q ∈ d, (fun p => (p.1, if p.1 = k then p.2 + 1 else p.2)) q = id q := by
          intro q hq
          have hq1 : ¬ q.1 = k := by
            intro e
            exact hk (e ▸ List.mem_map_of_mem Prod.fst hq)
          simp [hq1]
        rw [List.map_congr_left hcg, List.map_id]
      simp [bumpKey, htail]
    · simp only [bumpKey, if_neg h, List.cons.injEq, ih hd']

/-- The reference loop of one source adds, to each inbound entry, the number
of times its key occurs among the source's targets. -/
theorem refFold_inbound (src : Str) (ts : List Str) (inb : List (Str × Nat)) (errs : List Str)
    (hd : (inb.map Prod.fst).Nodup) :
    (ts.foldl (refStep src) (inb, errs)).1
      = inb.map (fun p => (p.1, p.2 + countOcc p.1 ts)) := by
  induction ts generalizing inb errs with
  | nil =>
    simp [countOcc_nil]
  | cons t ts ih =>
    simp only [List.foldl_cons, refStep]
    by_cases ht : hasKey inb t = true
    · rw [if_pos ht]
      have hd' : ((bumpKey inb t).map Prod.fst).Nodup := by
        rw [map_fst_bumpKey]; exact hd
      rw [ih (bumpKey inb t) errs hd', bumpKey_spec inb t hd, List.map_map]
      apply List.map_congr_left
      intro p _
      simp only [Function.comp]
      by_cases hp : p.1 = t
      · subst hp
        simp [countOcc_cons, Prod.ext_iff]
        omega
      · have hnt : ¬ t = p.1 := fun e => hp e.symm
        simp [hp, countOcc_cons, hnt]
    · rw [if_neg ht]
      rw [ih inb (errs ++ [brokenMsg src t]) hd]
      apply List.map_congr_left
      intro p hp
      have hpk : p.1 ∈ inb.map Prod.fst := List.mem_map_of_mem Prod.fst hp
      have hnt2 : ¬ t = p.1 := by
        intro e
        rw [e] at ht
        exact ht ((hasKey_iff_mem inb p.1).mpr hpk)
      simp [countOcc_cons, hnt2]

/-- The edge loop adds, to each inbound entry, the number of times its key
occurs among all targets of the graph. -/
theorem edgeFold_inbound (cross : List (Str × List Str)) (inb : List (Str × Nat)) (errs : List Str)
    (hd : (inb.map Prod.fst).Nodup) :
    (cross.foldl edgeStep (inb, errs)).1
      = inb.map (fun p => (p.1, p.2 + countOcc p.1 (allTargets cross))) := by
  induction cross generalizing inb errs with
  | nil =>
    simp [allTargets, countOcc_nil]
  | cons p cs ih =>
    simp only [List.foldl_cons]
    rcases hX : edgeStep (inb, errs) p with ⟨inb₁, errs₁⟩
    have hX1 : inb₁ = inb.map (fun q => (q.1, q.2 + countOcc q.1 p.2)) := by
      have := refFold_inbound p.1 p.2 inb errs hd
      rw [show (p.2.foldl (refStep p.1) (inb, errs)) = (inb₁, errs₁) from hX] at this
      exact this
    have hd' : (inb₁.map Prod.fst).Nodup := by
      rw [hX1, List.map_map]
      exact hd
    rw [ih inb₁ errs₁ hd', hX1, List.map_map]
    apply List.map_congr_left
    intro q _
    simp only [Function.comp, allTargets, List.map_cons, List.flatten_cons]
    rw [countOcc_append]
    simp [allTargets, Nat.add_assoc]
/-- The initial inbound map is keyed by the Registry slugs. -/
theorem map_fst_initInbound (reg : List (Str × Entry)) :
    (initInbound reg).map Prod.fst = reg.map Prod.fst := by
  simp [initInbound, List.map_map, Function.comp]

/-- The broken-reference errors of lint's first pass, in closed form. -/
theorem lintPhase1_errors (reg : List (Str × Entry)) (cross : List (Str × List Str)) :
    (lintPhase1 reg cross).2
      = (cross.map
          (fun p => (p.2.filter (fun t => !hasKey reg t)).map (brokenMsg p.1))).flatten := by
  have h := (edgeFold_spec cross (initInbound reg) []).2
  rw [lintPhase1, h]
  have hk : ∀ t, hasKey (initInbound reg) t = hasKey reg t :=
    fun t => hasKey_congr _ _ (map_fst_initInbound reg) t
  simp only [hk, List.nil_append]

/-- The final inbound counts of lint's first pass, in closed form: each
Registry slug maps to its occurrence count among all graph targets. -/
theorem lintPhase1_inbound (reg : List (Str × Entry)) (cross : List (Str × List Str))
    (hd : (reg.map Prod.fst).Nodup) :
    (lintPhase1 reg cross).1
      = reg.map (fun p => (p.1, countOcc p.1 (allTargets cross))) := by
  have hd' : ((initInbound reg).map Prod.fst).Nodup := by
    rw [map_fst_initInbound]; exact hd
  rw [lintPhase1, edgeFold_inbound cross (initInbound reg) [] hd']
  simp [initInbound, List.map_map, Function.comp]

/-- Lookup through one cons. -/
theorem dictGet_cons {β : Type} (p : Str × β) (d : List (Str × β)) (k : Str) :
    dictGet (p :: d) k = if p.1 = k then some p.2 else dictGet d k := by
  by_cases h : p.1 = k
  · simp [dictGet, List.find?_cons, h]
  · simp [dictGet, List.find?_cons, h]

/-- Lookup in a map whose values are computed from its keys. -/
theorem dictGet_map_by_key {γ : Type} (l : List (Str × Entry)) (g : Str → γ) (s : Str)
    (hs : hasKey l s = true) :
    dictGet (l.map (fun p => (p.1, g p.1))) s = some (g s) := by
  induction l with
  | nil => simp [hasKey] at hs
  | cons p l ih =>
    rw [List.map_cons, dictGet_cons]
    by_cases h : p.1 = s
    · rw [if_pos h, h]
    · rw [if_neg h]
      have hs' : hasKey l s = true := by
        simp only [hasKey, List.any_cons, Bool.or_eq_true] at hs
        rcases hs with h1 | h2
        · exact absurd (of_decide_eq_true h1) h
        · exact h2
      exact ih hs'
/-- Lint's synthesis pass appends one message per under-linked synthesis
entry, in Registry order. -/
theorem lintPhase2_spec (reg : List (Str × Entry)) (cross : List (Str × List Str))
    (errs : List Str) :
    lintPhase2 reg cross errs
      = errs ++ (reg.filter
          (fun p => decide (p.2.type = "synthesis".data) && decide (outCount cross p.1 < 3))).map
            (fun p => synthMsg p.1) := by
  induction reg generalizing errs with
  | nil => simp [lintPhase2]
  | cons p rs ih =>
    have step : lintPhase2 (p :: rs) cross errs = lintPhase2 rs cross (synthStep cross errs p) := by
      simp [lintPhase2]
    rw [step, ih, List.filter_cons]
    by_cases h1 : p.2.type = "synthesis".data
    · by_cases h2 : outCount cross p.1 < 3
      · simp [synthStep, h1, h2, List.append_assoc]
      · simp [synthStep, h1, h2]
    · simp [synthStep, h1]

/-- The warning fold, from an arbitrary accumulator. -/
theorem lintWarnings_fold (inb : List (Str × Nat)) (ws : List Str) :
    inb.foldl warnStep ws
      = ws ++ (inb.filter (fun p => decide (p.2 = 0))).map (fun p => orphanMsg p.1) := by
  induction inb generalizing ws with
  | nil => simp
  | cons p rs ih =>
    rw [List.foldl_cons, ih, List.filter_cons]
    by_cases h : p.2 = 0
    · simp [warnStep, h, List.append_assoc]
    · simp [warnStep, h]

/-- The warnings are one orphan message per zero-inbound entry, in order. -/
theorem lintWarnings_spec (inb : List (Str × Nat)) :
    lintWarnings inb
      = (inb.filter (fun p => decide (p.2 = 0))).map (fun p => orphanMsg p.1) := by
  rw [lintWarnings, lintWarnings_fold, List.nil_append]

/-- Filtering a mapped list is mapping the filtered list. -/
theorem map_filter_comm {α β : Type} (f : α → β) (p : β → Bool) (l : List α) :
    (l.map f).filter p = (l.filter (fun a => p (f a))).map f := by
  induction l with
  | nil => rfl
  | cons a l ih =>
    rw [List.map_cons, List.filter_cons, List.filter_cons]
    by_cases h : p (f a) = true
    · simp [h, ih]
    · simp only [Bool.not_eq_true] at h
      simp [h, ih]
/-- Distinct slugs give distinct orphan messages. -/
theorem orphanMsg_inj (a b : Str) (h : orphanMsg a = orphanMsg b) : a = b := by
  simpa [orphanMsg] using h

/-- Claim C2: for every Registry and Reference Graph, lint records, per edge,
exactly one error string `Broken ref: source -> target` when the target is
missing from the Registry (the flattened per-edge error list below), and the
final inbound count of every Registry slug is the number of times it occurs
among the graph's targets — so a broken edge changes no inbound count. In the
claim's instance (Registry `/a`, `/b`; graph `/a -> /c`) lint emits exactly
the one error for `/a -> /c` and none mentioning `/b`. -/
theorem claim_C2 (reg : List (Str × Entry)) (cross : List (Str × List Str))
    (hreg : (reg.map Prod.fst).Nodup) :
    ((lintPhase1 reg cross).2
        = (cross.map
            (fun p => (p.2.filter (fun t => !hasKey reg t)).map (brokenMsg p.1))).flatten)
    ∧ (∀ s, hasKey reg s = true →
        dictGet (lintPhase1 reg cross).1 s = some (countOcc s (allTargets cross)))
    ∧ (lint_repository
        [("/a".data, mkEntry "/a".data "encyclopedia".data),
         ("/b".data, mkEntry "/b".data "encyclopedia".data)]
        [("/a".data, ["/c".data])]).1 = [brokenMsg "/a".data "/c".data] := by
  refine ⟨lintPhase1_errors reg cross, fun s hs => ?_, by decide⟩
  rw [lintPhase1_inbound reg cross hreg]
  exact dictGet_map_by_key reg (fun k => countOcc k (allTargets cross)) s hs

/-- Witness for claim C2 at the claim's own instance. -/
theorem claim_C2_witness :
    ((lintPhase1
        [("/a".data, mkEntry "/a".data "encyclopedia".data),
         ("/b".data, mkEntry "/b".data "encyclopedia".data)]
        [("/a".data, ["/c".data])]).2
        = ([("/a".data, ["/c".data])].map
            (fun p => (p.2.filter
              (fun t => !hasKey
                [("/a".data, mkEntry "/a".data "encyclopedia".data),
                 ("/b".data, mkEntry "/b".data "encyclopedia".data)] t)).map
              (brokenMsg p.1))).flatten)
    ∧ (∀ s, hasKey
          [("/a".data, mkEntry "/a".data "encyclopedia".data),
           ("/b".data, mkEntry "/b".data "encyclopedia".data)] s = true →
        dictGet (lintPhase1
          [("/a".data, mkEntry "/a".data "encyclopedia".data),
           ("/b".data, mkEntry "/b".data "encyclopedia".data)]
          [("/a".data, ["/c".data])]).1 s
          = some (countOcc s (allTargets [("/a".data, ["/c".data])])))
    ∧ (lint_repository
        [("/a".data, mkEntry "/a".data "encyclopedia".data),
         ("/b".data, mkEntry "/b".data "encyclopedia".data)]
        [("/a".data, ["/c".data])]).1 = [brokenMsg "/a".data "/c".data] :=
  claim_C2 _ _ (by decide)

/-- Claim C3: lint's error list is the broken-reference errors followed by
one error `Synthesis needs >=3 related: slug` for exactly those Registry
entries of kind `synthesis` whose stored outbound-target count (the size of
the stored duplicate-free target set, absent slugs counting zero, broken
targets included) is below three. A synthesis entry with two outbound
references triggers the error; with three it does not. -/
theorem claim_C3 :
    (∀ (reg : List (Str × Entry)) (cross : List (Str × List Str)),
      (lint_repository reg cross).1
        = (lintPhase1 reg cross).2
          ++ (reg.filter
                (fun p => decide (p.2.type = "synthesis".data)
                  && decide (outCount cross p.1 < 3))).map (fun p => synthMsg p.1))
    ∧ synthMsg "/s".data ∈
        (lint_repository [("/s".data, mkEntry "/s".data "synthesis".data)]
          [("/s".data, ["/x".data, "/y".data])]).1
    ∧ synthMsg "/s".data ∉
        (lint_repository [("/s".data, mkEntry "/s".data "synthesis".data)]
          [("/s".data, ["/x".data, "/y".data, "/z".data])]).1 := by
  refine ⟨fun reg cross => ?_, by decide, by decide⟩
  rw [lint_repository]
  exact lintPhase2_spec reg cross _
/-- Claim C4, counterexample. The claim counts inbound references only "from
the rest of the corpus (entries other than itself)". The code counts every
occurrence among the graph's targets, self-references included: for a
Registry containing `/a` alone and the graph edge `/a -> /a`, the entry has
zero inbound references from other entries, yet lint emits no orphan warning
at all, where the claim requires exactly one. -/
theorem claim_C4_counterexample :
    ¬ (∀ (reg : List (Str × Entry)) (cross : List (Str × List Str)),
        (reg.map Prod.fst).Nodup →
        ∀ s, hasKey reg s = true →
        countOcc s (allTargets (cross.filter (fun p => !decide (p.1 = s)))) = 0 →
        countOcc (orphanMsg s) (lint_repository reg cross).2 = 1) := by
  intro h
  have := h [("/a".data, mkEntry "/a".data "encyclopedia".data)]
    [("/a".data, ["/a".data])] (by decide) "/a".data (by decide) (by decide)
  exact absurd this (by decide)

/-- Claim C4, amended: lint emits exactly one warning `Orphan: slug` for
every Registry entry that occurs nowhere among the Reference Graph's targets
(self-references count as inbound), and no orphan warning for any other
entry, regardless of the entry's own outbound reference count. -/
theorem claim_C4_amended (reg : List (Str × Entry)) (cross : List (Str × List Str))
    (hreg : (reg.map Prod.fst).Nodup) :
    ((lint_repository reg cross).2
        = ((reg.map Prod.fst).filter
            (fun s => decide (countOcc s (allTargets cross) = 0))).map orphanMsg)
    ∧ (∀ s, hasKey reg s = true → countOcc s (allTargets cross) = 0 →
        countOcc (orphanMsg s) (lint_repository reg cross).2 = 1) := by
  have hw : (lint_repository reg cross).2
      = ((reg.map Prod.fst).filter
          (fun s => decide (countOcc s (allTargets cross) = 0))).map orphanMsg := by
    show lintWarnings (lintPhase1 reg cross).1 = _
    rw [lintWarnings_spec, lintPhase1_inbound reg cross hreg]
    rw [map_filter_comm, map_filter_comm]
    simp [List.map_map, Function.comp]
  refine ⟨hw, fun s hs h0 => ?_⟩
  rw [hw]
  rw [countOcc_map_inj orphanMsg orphanMsg_inj]
  apply countOcc_nodup_mem
  · exact List.Nodup.filter _ hreg
  · rw [List.mem_filter]
    exact ⟨(hasKey_iff_mem reg s).mp hs, by simp [h0]⟩

/-- Witness for claim C4 with Registry `/a`, `/b` and the edge `/a -> /b`. -/
theorem claim_C4_witness :
    ((lint_repository
        [("/a".data, mkEntry "/a".data "encyclopedia".data),
         ("/b".data, mkEntry "/b".data "encyclopedia".data)]
        [("/a".data, ["/b".data])]).2
        = (([("/a".data, mkEntry "/a".data "encyclopedia".data),
             ("/b".data, mkEntry "/b".data "encyclopedia".data)].map Prod.fst).filter
            (fun s => decide (countOcc s
              (allTargets [("/a".data, ["/b".data])]) = 0))).map orphanMsg)
    ∧ (∀ s, hasKey
          [("/a".data, mkEntry "/a".data "encyclopedia".data),
           ("/b".data, mkEntry "/b".data "encyclopedia".data)] s = true →
        countOcc s (allTargets [("/a".data, ["/b".data])]) = 0 →
        countOcc (orphanMsg s)
          (lint_repository
            [("/a".data, mkEntry "/a".data "encyclopedia".data),
             ("/b".data, mkEntry "/b".data "encyclopedia".data)]
            [("/a".data, ["/b".data])]).2 = 1) :=
  claim_C4_amended _ _ (by decide)

/-- Set enumeration commutes with dict insertion. -/
theorem mapValues_dictInsert (o : List Str → List Str) (d : List (Str × List Str))
    (k : Str) (v : List Str) :
    mapValues o (dictInsert d k v) = dictInsert (mapValues o d) k (o v) := by
  induction d with
  | nil => rfl
  | cons p d ih =>
    by_cases h : p.1 = k
    · simp [dictInsert, mapValues, h]
    · simp only [dictInsert, mapValues, List.map_cons] at *
      rw [if_neg h, if_neg h]
      simp [ih]

/-- One scan step acts componentwise: the registry and anchor updates never
read the cross map, and the cross update is the raw-target insertion with the
set enumeration applied to the inserted value. -/
theorem scanStep_decompose (o : List Str → List Str) (reg : List (Str × Entry))
    (rawc : List (Str × List Str)) (anch : List (Str × List Str)) (f : MdFile) :
    scanStep o ⟨reg, mapValues o rawc, anch⟩ f
      = ⟨regStep reg f, mapValues o (rawCrossStep rawc f), anchStep anch f⟩ := by
  rw [scanStep, regStep, anchStep, rawCrossStep]
  by_cases h : (collect_kb_refs f.content).isEmpty = true
  · simp [h]
  · simp only [Bool.not_eq_true] at h
    simp [h, mapValues_dictInsert]

/-- The scan fold acts componentwise on its three maps. -/
theorem scanFold_spec (o : List Str → List Str) (files : List MdFile)
    (reg : List (Str × Entry)) (rawc : List (Str × List Str))
    (anch : List (Str × List Str)) :
    files.foldl (scanStep o) ⟨reg, mapValues o rawc, anch⟩
      = ⟨files.foldl regStep reg, mapValues o (files.foldl rawCrossStep rawc),
         files.foldl anchStep anch⟩ := by
  induction files generalizing reg rawc anch with
  | nil => rfl
  | cons f fs ih =>
    simp only [List.foldl_cons, scanStep_decompose]
    exact ih _ _ _

/-- The scan decomposes into an enumeration-independent registry fold, the
raw reference graph with the set enumeration applied to every value, and an
enumeration-independent anchors fold. -/
theorem scan_components (o : List Str → List Str) (files : List MdFile) :
    scan_repository o files
      = ⟨files.foldl regStep [], mapValues o (rawCross files), files.foldl anchStep []⟩ := by
  have h := scanFold_spec o files [] [] []
  rw [scan_repository, rawCross]
  rw [show (mapValues o [] : List (Str × List Str)) = [] from rfl] at h
  exact h

/-- Keys after insertion: the old keys plus the inserted one. -/
theorem hasKey_dictInsert {β : Type} (d : List (Str × β)) (k : Str) (v : β) (s : Str) :
    hasKey (dictInsert d k v) s = true ↔ hasKey d s = true ∨ s = k := by
  induction d with
  | nil =>
    simp [dictInsert, hasKey, eq_comm]
  | cons p d ih =>
    by_cases h : p.1 = k
    · rw [dictInsert, if_pos h]
      simp only [hasKey, List.any_cons, Bool.or_eq_true, decide_eq_true_eq]
      constructor
      · rintro (h1 | h2)
        · exact Or.inr h1.symm
        · exact Or.inl (Or.inr h2)
      · rintro ((h1 | h2) | rfl)
        · exact Or.inl (by rw [← h, ← h1])
        · exact Or.inr h2
        · exact Or.inl rfl
    · rw [dictInsert, if_neg h]
      simp only [hasKey, List.any_cons, Bool.or_eq_true, decide_eq_true_eq] at ih ⊢
      rw [or_assoc]
      constructor
      · rintro (h1 | h2)
        · exact Or.inl h1
        · exact Or.inr (ih.mp h2)
      · rintro (h1 | h2)
        · exact Or.inl h1
        · exact Or.inr (ih.mpr h2)

/-- A member of a dict after insertion is an old member or the inserted
pair. -/
theorem mem_dictInsert {β : Type} (p : Str × β) (d : List (Str × β)) (k : Str) (v : β)
    (h : p ∈ dictInsert d k v) : p ∈ d ∨ p = (k, v) := by
  induction d with
  | nil =>
    rw [dictInsert] at h
    rcases List.mem_cons.mp h with h1 | h1
    · exact Or.inr h1
    · cases h1
  | cons q d ih =>
    by_cases hq : q.1 = k
    · rw [dictInsert, if_pos hq] at h
      rcases List.mem_cons.mp h with rfl | h2
      · exact Or.inr rfl
      · exact Or.inl (List.mem_cons_of_mem _ h2)
    · rw [dictInsert, if_neg hq] at h
      rcases List.mem_cons.mp h with rfl | h2
      · exact Or.inl (List.mem_cons_self _ _)
      · rcases ih h2 with h3 | h3
        · exact Or.inl (List.mem_cons_of_mem _ h3)
        · exact Or.inr h3

/-- Insertion keeps the key list duplicate-free. -/
theorem keys_nodup_dictInsert {β : Type} (d : List (Str × β)) (k : Str) (v : β)
    (h : (d.map Prod.fst).Nodup) : ((dictInsert d k v).map Prod.fst).Nodup := by
  induction d with
  | nil => simp [dictInsert]
  | cons q d ih =>
    rw [List.map_cons, List.nodup_cons] at h
    rcases h with ⟨hq, hd⟩
    by_cases hqk : q.1 = k
    · rw [dictInsert, if_pos hqk, List.map_cons, List.nodup_cons]
      exact ⟨fun hm => hq (hqk ▸ hm), hd⟩
    · rw [dictInsert, if_neg hqk, List.map_cons, List.nodup_cons]
      refine ⟨?_, ih hd⟩
      intro hmem
      rcases List.mem_map.mp hmem with ⟨r, hr, hrq⟩
      rcases mem_dictInsert r d k v hr with h3 | h3
      · exact hq (hrq ▸ List.mem_map_of_mem Prod.fst h3)
      · apply hqk
        rw [← hrq, h3]
/-- A slug is a key of the raw reference graph exactly when some processed
file has that slug and at least one reference. -/
theorem rawCross_fold_hasKey (files : List MdFile) (acc : List (Str × List Str)) (s : Str) :
    hasKey (files.foldl rawCrossStep acc) s = true ↔
      hasKey acc s = true ∨
        ∃ f, f ∈ files ∧ slugOfFile f = s ∧ collect_kb_refs f.content ≠ [] := by
  induction files generalizing acc with
  | nil => simp
  | cons f fs ih =>
    rw [List.foldl_cons, ih]
    by_cases h : (collect_kb_refs f.content).isEmpty = true
    · rw [rawCrossStep, if_pos h]
      have hemp : collect_kb_refs f.content = [] := List.isEmpty_iff.mp h
      constructor
      · rintro (h1 | h1)
        · exact Or.inl h1
        · rcases h1 with ⟨g, hg, hs, hr⟩
          exact Or.inr ⟨g, List.mem_cons_of_mem _ hg, hs, hr⟩
      · rintro (h1 | ⟨g, hg, hs, hr⟩)
        · exact Or.inl h1
        · rcases List.mem_cons.mp hg with rfl | hg'
          · exact absurd hemp hr
          · exact Or.inr ⟨g, hg', hs, hr⟩
    · rw [rawCrossStep, if_neg h]
      simp only [Bool.not_eq_true] at h
      have hne : collect_kb_refs f.content ≠ [] := by
        intro e
        rw [e] at h
        cases h
      constructor
      · rintro (h1 | h1)
        · rcases (hasKey_dictInsert acc _ _ s).mp h1 with h2 | h2
          · exact Or.inl h2
          · exact Or.inr ⟨f, List.mem_cons_self _ _, h2.symm, hne⟩
        · rcases h1 with ⟨g, hg, hs, hr⟩
          exact Or.inr ⟨g, List.mem_cons_of_mem _ hg, hs, hr⟩
      · rintro (h1 | ⟨g, hg, hs, hr⟩)
        · exact Or.inl ((hasKey_dictInsert acc _ _ s).mpr (Or.inl h1))
        · rcases List.mem_cons.mp hg with rfl | hg'
          · exact Or.inl ((hasKey_dictInsert acc _ _ s).mpr (Or.inr hs.symm))
          · exact Or.inr ⟨g, hg', hs, hr⟩

/-- Every entry of the raw reference graph is some processed file's slug with
its nonempty raw target list. -/
theorem mem_rawCross_fold (files : List MdFile) (acc : List (Str × List Str))
    (p : Str × List Str) (h : p ∈ files.foldl rawCrossStep acc) :
    p ∈ acc ∨
      ∃ f, f ∈ files ∧ collect_kb_refs f.content ≠ [] ∧
        p = (slugOfFile f, (collect_kb_refs f.content).map (fun r => r.1)) := by
  induction files generalizing acc with
  | nil => exact Or.inl h
  | cons f fs ih =>
    rw [List.foldl_cons] at h
    rcases ih (rawCrossStep acc f) h with h1 | h1
    · by_cases he : (collect_kb_refs f.content).isEmpty = true
      · rw [rawCrossStep, if_pos he] at h1
        exact Or.inl h1
      · rw [rawCrossStep, if_neg he] at h1
        simp only [Bool.not_eq_true] at he
        have hne : collect_kb_refs f.content ≠ [] := by
          intro e
          rw [e] at he
          cases he
        rcases mem_dictInsert _ _ _ _ h1 with h2 | h2
        · exact Or.inl h2
        · exact Or.inr ⟨f, List.mem_cons_self _ _, hne, h2⟩
    · rcases h1 with ⟨g, hg, hr, hp⟩
      exact Or.inr ⟨g, List.mem_cons_of_mem _ hg, hr, hp⟩

/-- The raw reference graph has duplicate-free keys. -/
theorem keys_nodup_rawCross_fold (files : List MdFile) (acc : List (Str × List Str))
    (h : (acc.map Prod.fst).Nodup) :
    ((files.foldl rawCrossStep acc).map Prod.fst).Nodup := by
  induction files generalizing acc with
  | nil => exact h
  | cons f fs ih =>
    rw [List.foldl_cons]
    apply ih
    rw [rawCrossStep]
    by_cases he : (collect_kb_refs f.content).isEmpty = true
    · rw [if_pos he]
      exact h
    · rw [if_neg he]
      exact keys_nodup_dictInsert _ _ _ h

/-- Applying a set enumeration to the values keeps the keys. -/
theorem map_fst_mapValues (o : List Str → List Str) (d : List (Str × List Str)) :
    (mapValues o d).map Prod.fst = d.map Prod.fst := by
  simp [mapValues, List.map_map, Function.comp]

/-- Membership in the first-occurrence deduplication fold. -/
theorem dedup_fold_mem (l : List Str) (acc : List Str) (x : Str) :
    x ∈ l.foldl setInsert acc ↔ x ∈ acc ∨ x ∈ l := by
  induction l generalizing acc with
  | nil => simp
  | cons a l ih =>
    rw [List.foldl_cons, ih, mem_setInsert]
    constructor
    · rintro ((h | rfl) | h)
      · exact Or.inl h
      · exact Or.inr (List.mem_cons_self _ _)
      · exact Or.inr (List.mem_cons_of_mem _ h)
    · rintro (h | h)
      · exact Or.inl (Or.inl h)
      · rcases List.mem_cons.mp h with rfl | h2
        · exact Or.inl (Or.inr rfl)
        · exact Or.inr h2

/-- The deduplication fold never stores duplicates. -/
theorem dedup_fold_nodup (l : List Str) (acc : List Str) (h : acc.Nodup) :
    (l.foldl setInsert acc).Nodup := by
  induction l generalizing acc with
  | nil => exact h
  | cons a l ih =>
    rw [List.foldl_cons]
    exact ih _ (nodup_setInsert _ _ h)

/-- First-occurrence order is a valid set enumeration. -/
theorem validSetList_dedupFirst : validSetList dedupFirst := by
  intro l
  refine ⟨dedup_fold_nodup l [] List.nodup_nil, fun x => ?_⟩
  rw [dedupFirst, dedup_fold_mem]
  simp

/-- Reversed first-occurrence order is a valid set enumeration. -/
theorem validSetList_dedupFirstRev : validSetList dedupFirstRev := by
  intro l
  rcases validSetList_dedupFirst l with ⟨h1, h2⟩
  refine ⟨by simpa [dedupFirstRev] using h1, fun x => ?_⟩
  rw [dedupFirstRev, List.mem_reverse]
  exact h2 x
/-- In a dict with duplicate-free keys, members with equal keys are equal. -/
theorem eq_of_mem_nodup_keys {β : Type} (d : List (Str × β))
    (hd : (d.map Prod.fst).Nodup) (q₁ q₂ : Str × β)
    (h₁ : q₁ ∈ d) (h₂ : q₂ ∈ d) (hk : q₁.1 = q₂.1) : q₁ = q₂ := by
  induction d with
  | nil => cases h₁
  | cons p d ih =>
    rw [List.map_cons, List.nodup_cons] at hd
    rcases hd with ⟨hp, hd⟩
    rcases List.mem_cons.mp h₁ with rfl | h₁'
    · rcases List.mem_cons.mp h₂ with rfl | h₂'
      · rfl
      · exact absurd (hk ▸ List.mem_map_of_mem Prod.fst h₂') hp
    · rcases List.mem_cons.mp h₂ with rfl | h₂'
      · exact absurd (hk ▸ List.mem_map_of_mem Prod.fst h₁') hp
      · exact ih hd h₁' h₂'

/-- Claim C9: after any scan (for any run's set enumeration, over a corpus
with pairwise distinct slugs), the Reference Graph has a key for a slug
exactly when that document produced at least one outbound reference — absence
of a key means zero outbound references, not an error — and every stored
value is a nonempty duplicate-free list holding exactly the document's
distinct target slugs (duplicate references collapse). -/
theorem claim_C9 (o : List Str → List Str) (files : List MdFile)
    (ho : validSetList o) (_hs : (files.map slugOfFile).Nodup) :
    (∀ s, hasKey (scan_repository o files).cross s = true ↔
       ∃ f, f ∈ files ∧ slugOfFile f = s ∧ collect_kb_refs f.content ≠ [])
    ∧ (∀ p, p ∈ (scan_repository o files).cross →
        p.2 ≠ [] ∧ p.2.Nodup ∧
        ∃ f, f ∈ files ∧ slugOfFile f = p.1 ∧
          (∀ x, x ∈ p.2 ↔ x ∈ (collect_kb_refs f.content).map (fun r => r.1))) := by
  have hsc : (scan_repository o files).cross = mapValues o (rawCross files) := by
    rw [scan_components]
  constructor
  · intro s
    rw [hsc,
      hasKey_congr (mapValues o (rawCross files)) (rawCross files) (map_fst_mapValues o _) s,
      rawCross, rawCross_fold_hasKey]
    simp [hasKey]
  · intro p hp
    rw [hsc] at hp
    rcases List.mem_map.mp hp with ⟨q, hq, rfl⟩
    rw [rawCross] at hq
    rcases mem_rawCross_fold files [] q hq with h1 | h1
    · cases h1
    · rcases h1 with ⟨f, hf, hne, rfl⟩
      rcases ho ((collect_kb_refs f.content).map (fun r => r.1)) with ⟨hnd, hm⟩
      refine ⟨?_, hnd, f, hf, rfl, fun x => hm x⟩
      have htne : (collect_kb_refs f.content).map (fun r => r.1) ≠ [] := by
        intro e
        exact hne (List.map_eq_nil_iff.mp e)
      rcases List.exists_mem_of_ne_nil _ htne with ⟨y, hy⟩
      exact List.ne_nil_of_mem ((hm y).mpr hy)

/-- Witness for claim C9 on a two-file corpus, one file referencing the other
twice, enumerated in first-occurrence order. -/
theorem claim_C9_witness :
    (∀ s, hasKey (scan_repository dedupFirst [exFileA, exFileB]).cross s = true ↔
       ∃ f, f ∈ [exFileA, exFileB] ∧ slugOfFile f = s ∧ collect_kb_refs f.content ≠ [])
    ∧ (∀ p, p ∈ (scan_repository dedupFirst [exFileA, exFileB]).cross →
        p.2 ≠ [] ∧ p.2.Nodup ∧
        ∃ f, f ∈ [exFileA, exFileB] ∧ slugOfFile f = p.1 ∧
          (∀ x, x ∈ p.2 ↔ x ∈ (collect_kb_refs f.content).map (fun r => r.1))) :=
  claim_C9 dedupFirst [exFileA, exFileB] validSetList_dedupFirst (by decide)

/-- Claim C5, counterexample. The claim says two scans of an unchanged corpus
produce byte-identical Registry and Reference-Graph artifacts, in particular
an identical serialized order of each entry's reference-target list. The
stored list is Python's `list({...})` of a string set, whose order CPython
does not fix across processes (per-process hash salt). For a document with
the two references `/x`, `/y`, one valid enumeration stores them as
`[/x, /y]` and another as `[/y, /x]`, so the serialized graphs differ. -/
theorem claim_C5_counterexample :
    ¬ (∀ (o₁ o₂ : List Str → List Str), validSetList o₁ → validSetList o₂ →
        ∀ files : List MdFile,
          (scan_repository o₁ files).registry = (scan_repository o₂ files).registry
          ∧ (scan_repository o₁ files).cross = (scan_repository o₂ files).cross) := by
  intro h
  have hcr := (h dedupFirst dedupFirstRev validSetList_dedupFirst validSetList_dedupFirstRev
      [exScanFile]).2
  exact absurd hcr (by decide)

/-- Claim C5, amended: across two runs over the unchanged, identically
enumerated corpus (any two valid set enumerations), the Registry and the
anchor sets are identical (byte-identical once serialized by the
deterministic JSON writer, which embeds no generation timestamp), and the
Reference-Graph artifacts agree up to the per-source order of each
reference-target list: same keys in the same order, and target lists equal
as sets. -/
theorem claim_C5_amended (o₁ o₂ : List Str → List Str)
    (h₁ : validSetList o₁) (h₂ : validSetList o₂) (files : List MdFile) :
    (scan_repository o₁ files).registry = (scan_repository o₂ files).registry
    ∧ (scan_repository o₁ files).anchors = (scan_repository o₂ files).anchors
    ∧ ((scan_repository o₁ files).cross).map Prod.fst
        = ((scan_repository o₂ files).cross).map Prod.fst
    ∧ (∀ p, p ∈ (scan_repository o₁ files).cross →
        ∀ q, q ∈ (scan_repository o₂ files).cross →
        p.1 = q.1 → ∀ x, x ∈ p.2 ↔ x ∈ q.2) := by
  rw [scan_components o₁ files, scan_components o₂ files]
  refine ⟨rfl, rfl, by rw [map_fst_mapValues, map_fst_mapValues], ?_⟩
  intro p hp q hq hpq x
  simp only at hp hq
  rcases List.mem_map.mp hp with ⟨a, ha, rfl⟩
  rcases List.mem_map.mp hq with ⟨b, hb, rfl⟩
  have hraw : ((rawCross files).map Prod.fst).Nodup :=
    keys_nodup_rawCross_fold files [] List.nodup_nil
  have hab : a = b := eq_of_mem_nodup_keys _ hraw a b ha hb hpq
  subst hab
  rw [(h₁ a.2).2 x, (h₂ a.2).2 x]

/-- Witness for claim C5 on a one-file corpus with two references, comparing
first-occurrence order with its reverse. -/
theorem claim_C5_witness :
    (scan_repository dedupFirst [exScanFile]).registry
        = (scan_repository dedupFirstRev [exScanFile]).registry
    ∧ (scan_repository dedupFirst [exScanFile]).anchors
        = (scan_repository dedupFirstRev [exScanFile]).anchors
    ∧ ((scan_repository dedupFirst [exScanFile]).cross).map Prod.fst
        = ((scan_repository dedupFirstRev [exScanFile]).cross).map Prod.fst
    ∧ (∀ p, p ∈ (scan_repository dedupFirst [exScanFile]).cross →
        ∀ q, q ∈ (scan_repository dedupFirstRev [exScanFile]).cross →
        p.1 = q.1 → ∀ x, x ∈ p.2 ↔ x ∈ q.2) :=
  claim_C5_amended dedupFirst dedupFirstRev validSetList_dedupFirst
    validSetList_dedupFirstRev [exScanFile]

end KBCI
